import Mathlib

/-!
Shallow embedding of the `cw-coins` crate (`src/lib.rs`): the `Coins` collection
(a `BTreeMap<String, Uint128>`), its construction paths (`TryFrom<Vec<Coin>>`,
`FromStr`, custom `serde::Deserialize`), and its output paths (`Display`,
derived `Serialize`).

Modelling conventions:
* a Rust `String` is a `List Char`; Rust's byte-lexicographic `Ord` on UTF-8
  strings coincides with codepoint-lexicographic order, modelled by `strLt`;
* the `BTreeMap` is its sorted entry list, built by the ordered insert
  `btreeInsert` (later inserts of an existing key overwrite the value);
* `Uint128` amounts are `Nat`s; the external parser `Uint128::from_str` is
  modelled from the spec (see `Uint128.fromStr`);
* fallible Rust functions return `Except CoinsError`.
-/

deriving instance DecidableEq for Except

namespace CwCoins

/-- A Rust `String`, modelled as its list of characters. -/
abbrev Str := List Char

/-- Coerce a Lean string literal into the model type. -/
def str (s : String) : Str := s.data

/-- The error values surfaced by the crate's conversions, at the granularity the
spec distinguishes them: invalid coin format (token without an alphabetic
character), invalid amount (naming the offending text), the generic
"duplicate denoms" of the `Vec` path, and the denom-naming duplicate error of
the serde path. -/
inductive CoinsError where
  | invalidCoinFormat (text : Str)
  | invalidAmount (text : Str)
  | duplicateDenoms
  | duplicateDenom (denom : Str)
  deriving DecidableEq

/-- Strict byte-lexicographic order on strings (Rust `Ord for String`), the
comparison used by `BTreeMap<String, _>`. -/
def strLt : Str → Str → Bool
  | [], [] => false
  | [], _ :: _ => true
  | _ :: _, [] => false
  | a :: as, b :: bs => if a < b then true else if a = b then strLt as bs else false

/-- Model of `cosmwasm_std::Coin`: a denom paired with a `Uint128` amount. -/
structure Coin where
  denom : Str
  amount : Nat
  deriving DecidableEq

/-- The type `Coins` wraps `BTreeMap<String, Uint128>`; the map is modelled as its
entry list sorted by `strLt` on keys. -/
abbrev Coins := List (Str × Nat)

/-- The map's sortedness invariant: keys strictly ascending in `strLt`. -/
def coinsSorted (c : Coins) : Prop := c.Pairwise fun p q => strLt p.1 q.1 = true

/-- Model of `BTreeMap::insert`: ordered insertion; inserting an existing key replaces
its value. -/
def btreeInsert (k : Str) (v : Nat) : Coins → Coins
  | [] => [(k, v)]
  | (k', v') :: rest =>
    if strLt k k' then (k, v) :: (k', v') :: rest
    else if k = k' then (k, v) :: rest
    else (k', v') :: btreeInsert k v rest

/-- Collecting an iterator of pairs into a `BTreeMap`: insert in sequence
order, so a later pair with an already-present key overwrites the earlier
amount. -/
def btreeFromList (l : List (Str × Nat)) : Coins :=
  l.foldl (fun m p => btreeInsert p.1 p.2 m) []

/-- Numeric value of a decimal digit string, most significant digit first. -/
def digitsToNat (s : Str) : Nat := s.foldl (fun acc c => 10 * acc + (c.toNat - 48)) 0

/-- Modelled from the spec: `Uint128::from_str` lives in the external
`cosmwasm_std` crate, not in this repository. Per the spec, an amount string
"is parsed as the fixed-width unsigned integer; a non-numeric or overflowing
string fails with `InvalidAmount` naming the offending string", and
`InvalidAmount` also covers "an empty string". -/
def Uint128.fromStr (s : Str) : Except CoinsError Nat :=
  if s ≠ [] ∧ s.all Char.isDigit ∧ digitsToNat s < 2 ^ 128 then .ok (digitsToNat s)
  else .error (.invalidAmount s)

/-- Model of `helpers::parse_coin_str`: scan for the first alphabetic character (Rust
`char::is_alphabetic`, modelled by `Char.isAlpha`); the prefix before it is the
amount (parsed by `Uint128::from_str`), the remainder from it (inclusive) is
the denom. A token with no alphabetic character at all is an
"Invalid coin string" parse error. -/
def parse_coin_str (s : Str) : Except CoinsError (Str × Nat) :=
  match s.dropWhile (fun c => !c.isAlpha) with
  | [] => .error (.invalidCoinFormat s)
  | c :: cs =>
    (Uint128.fromStr (s.takeWhile (fun c => !c.isAlpha))).map fun amount => (c :: cs, amount)

/-- Model of Rust `str::split(",")`: splitting the empty string yields one empty token. -/
def splitComma : Str → List Str
  | [] => [[]]
  | c :: rest =>
    if c = ',' then [] :: splitComma rest
    else
      match splitComma rest with
      | [] => [[c]]
      | t :: ts => (c :: t) :: ts

/-- Model of Rust `collect::<StdResult<_>>()` over the parsed tokens: stop at the first
parse error, otherwise return all pairs in token order. -/
def collectResults : List Str → Except CoinsError (List (Str × Nat))
  | [] => .ok []
  | t :: ts =>
    match parse_coin_str t with
    | .error e => .error e
    | .ok p =>
      match collectResults ts with
      | .error e => .error e
      | .ok ps => .ok (p :: ps)

/-- Model of `FromStr for Coins`: split on commas, parse every token, and collect the
(denom, amount) pairs into the B-tree map. No duplicate check is performed
here: collecting lets a later token with the same denom overwrite. -/
def Coins.from_str (s : Str) : Except CoinsError Coins :=
  (collectResults (splitComma s)).map btreeFromList

/-- Decimal rendering of an amount: digits accumulated most significant first
(Rust `Display for Uint128`); the first argument is fuel for the recursion. -/
def natToDecAux : Nat → Nat → Str
  | _, 0 => []
  | 0, _ + 1 => []
  | fuel + 1, n + 1 => natToDecAux fuel ((n + 1) / 10) ++ [Nat.digitChar ((n + 1) % 10)]

/-- Decimal rendering of an amount, with `0` rendered as `"0"`. -/
def natToDec (n : Nat) : Str := if n = 0 then ['0'] else natToDecAux n n

/-- Model of Rust `Vec::join(",")`. -/
def joinComma : List Str → Str
  | [] => []
  | [t] => t
  | t :: ts => t ++ ',' :: joinComma ts

/-- Model of `Display for Coins`: render each entry as `<amount><denom>` in the map's
(sorted) iteration order and join with commas. -/
def Coins.to_string (c : Coins) : Str :=
  joinComma (c.map fun p => natToDec p.2 ++ p.1)

/-- Model of `TryFrom<Vec<Coin>> for Coins`: collect the pairs into the map, then
compare sizes; a size mismatch means at least one duplicate denom, reported
generically as "duplicate denoms". -/
def Coins.try_from (vec : List Coin) : Except CoinsError Coins :=
  let map := btreeFromList (vec.map fun c => (c.denom, c.amount))
  if map.length ≠ vec.length then .error .duplicateDenoms
  else .ok map

/-- The loop of `Visitor::visit_map` in the custom `Deserialize`: walk the
document's entries in declaration order with a seen-set; a denom already seen
fails naming it, then the amount string is parsed (failure naming the string),
then the entry is recorded. -/
def visit_map_loop (entries : List (Str × Str)) (seen : List Str) (coins : Coins) :
    Except CoinsError Coins :=
  match entries with
  | [] => .ok coins
  | (denom, amountStr) :: rest =>
    if denom ∈ seen then .error (.duplicateDenom denom)
    else
      match Uint128.fromStr amountStr with
      | .error _ => .error (.invalidAmount amountStr)
      | .ok amount => visit_map_loop rest (denom :: seen) (btreeInsert denom amount coins)

/-- Model of `Deserialize for Coins`: run the visitor over the document's entries. -/
def Coins.deserialize (entries : List (Str × Str)) : Except CoinsError Coins :=
  visit_map_loop entries [] []

/-- Model of the derived `Serialize for Coins`: emit the map's entries in its (sorted)
iteration order, amounts rendered as decimal strings. -/
def Coins.serialize (c : Coins) : List (Str × Str) :=
  c.map fun p => (p.1, natToDec p.2)

/-- Model of `Coins::new`: the empty collection. -/
def Coins.new : Coins := []

/-- Model of `Coins::len`. -/
def Coins.len (c : Coins) : Nat := c.length

/-- Model of `Coins::is_empty`. -/
def Coins.is_empty (c : Coins) : Bool := c.isEmpty

/-! ### Order facts about `strLt` -/

theorem strLt_iff_lex {a b : Str} : strLt a b = true ↔ List.Lex (· < ·) a b := by
  induction a generalizing b with
  | nil =>
    cases b with
    | nil => simp [strLt]
    | cons y ys => simpa [strLt] using List.Lex.nil
  | cons x xs ih =>
    cases b with
    | nil => simp [strLt]
    | cons y ys =>
      simp only [strLt]
      by_cases hxy : x < y
      · simpa [hxy] using List.Lex.rel hxy
      · rw [if_neg hxy]
        by_cases hxy2 : x = y
        · subst hxy2
          rw [if_pos rfl, ih]
          exact (List.Lex.cons_iff).symm
        · rw [if_neg hxy2]
          simp only [Bool.false_eq_true, false_iff]
          intro h
          cases h with
          | cons h => exact hxy2 rfl
          | rel h => exact hxy h

theorem strLt_irrefl (s : Str) : strLt s s = false := by
  rw [← Bool.not_eq_true, strLt_iff_lex]
  exact irrefl_of (List.Lex (· < ·)) s

theorem strLt_trans {a b c : Str} (h1 : strLt a b = true) (h2 : strLt b c = true) :
    strLt a c = true :=
  strLt_iff_lex.mpr (trans_of (List.Lex (· < ·)) (strLt_iff_lex.mp h1) (strLt_iff_lex.mp h2))

theorem strLt_asymm {a b : Str} (h : strLt a b = true) : strLt b a = false := by
  rw [← Bool.not_eq_true, strLt_iff_lex]
  intro h'
  have := strLt_trans h (strLt_iff_lex.mpr h')
  rw [strLt_irrefl] at this
  exact Bool.false_ne_true this

theorem strLt_trichotomy (a b : Str) : strLt a b = true ∨ a = b ∨ strLt b a = true := by
  rcases lt_trichotomy a b with h | h | h
  · exact Or.inl (strLt_iff_lex.mpr h)
  · exact Or.inr (Or.inl h)
  · exact Or.inr (Or.inr (strLt_iff_lex.mpr h))

/-! ### Lemmas about `btreeInsert` and `btreeFromList` -/

theorem mem_btreeInsert {p : Str × Nat} {k : Str} {v : Nat} {m : Coins}
    (h : p ∈ btreeInsert k v m) : p = (k, v) ∨ p ∈ m := by
  induction m with
  | nil => simpa [btreeInsert] using h
  | cons q rest ih =>
    obtain ⟨k', v'⟩ := q
    simp only [btreeInsert] at h
    split at h
    · simp only [List.mem_cons] at h ⊢
      tauto
    · split at h
      · simp only [List.mem_cons] at h ⊢
        tauto
      · simp only [List.mem_cons] at h ⊢
        rcases h with h | h
        · tauto
        · rcases ih h with h' | h' <;> tauto

theorem mem_keys_btreeInsert {d k : Str} {v : Nat} {m : Coins} :
    d ∈ (btreeInsert k v m).map Prod.fst ↔ d = k ∨ d ∈ m.map Prod.fst := by
  induction m with
  | nil => simp [btreeInsert]
  | cons q rest ih =>
    obtain ⟨k', v'⟩ := q
    simp only [btreeInsert]
    split
    · simp only [List.map_cons, List.mem_cons] <;> tauto
    · split
      · next heq =>
        subst heq
        simp only [List.map_cons, List.mem_cons] <;> tauto
      · simp only [List.map_cons, List.mem_cons, ih] <;> tauto

theorem btreeInsert_sorted {k : Str} {v : Nat} {m : Coins} (h : coinsSorted m) :
    coinsSorted (btreeInsert k v m) := by
  induction m with
  | nil => simp [btreeInsert, coinsSorted]
  | cons q rest ih =>
    obtain ⟨k', v'⟩ := q
    rw [coinsSorted, List.pairwise_cons] at h
    obtain ⟨hhead, htail⟩ := h
    simp only [btreeInsert]
    split
    · next hlt =>
      rw [coinsSorted, List.pairwise_cons]
      refine ⟨?_, List.pairwise_cons.mpr ⟨hhead, htail⟩⟩
      intro p hp
      rcases List.mem_cons.mp hp with rfl | hp
      · exact hlt
      · exact strLt_trans hlt (hhead p hp)
    · split
      · next heq =>
        subst heq
        rw [coinsSorted, List.pairwise_cons]
        exact ⟨hhead, htail⟩
      · next hlt hne =>
        rw [coinsSorted, List.pairwise_cons]
        refine ⟨?_, ih htail⟩
        intro p hp
        rcases mem_btreeInsert hp with rfl | hp
        · rcases strLt_trichotomy k k' with h | h | h
          · exact absurd h hlt
          · exact absurd h hne
          · exact h
        · exact hhead p hp

theorem btreeInsert_perm {k : Str} {v : Nat} {m : Coins} (h : k ∉ m.map Prod.fst) :
    (btreeInsert k v m).Perm ((k, v) :: m) := by
  induction m with
  | nil => simp [btreeInsert]
  | cons q rest ih =>
    obtain ⟨k', v'⟩ := q
    simp only [List.map_cons, List.mem_cons] at h
    push_neg at h
    obtain ⟨hne, hnin⟩ := h
    by_cases hlt : strLt k k' = true
    · simp only [btreeInsert, if_pos hlt]
      exact List.Perm.refl _
    · simp only [btreeInsert, if_neg hlt, if_neg hne]
      exact (((ih hnin).cons _).trans (List.Perm.swap _ _ _))

theorem btreeInsert_append {k : Str} {v : Nat} {m : Coins}
    (h : ∀ p ∈ m, strLt p.1 k = true) : btreeInsert k v m = m ++ [(k, v)] := by
  induction m with
  | nil => rfl
  | cons q rest ih =>
    obtain ⟨k', v'⟩ := q
    have hk' : strLt k' k = true := h (k', v') (List.mem_cons_self _ _)
    have h1 : ¬ (strLt k k' = true) := by
      intro hlt
      have := strLt_trans hlt hk'
      rw [strLt_irrefl] at this
      exact Bool.false_ne_true this
    have h2 : ¬ (k = k') := by
      rintro rfl
      rw [strLt_irrefl] at hk'
      exact Bool.false_ne_true hk'
    simp only [btreeInsert, if_neg h1, if_neg h2, List.cons_append, List.cons.injEq, true_and]
    exact ih fun p hp => h p (List.mem_cons_of_mem _ hp)

theorem btreeInsert_length {k : Str} {v : Nat} {m : Coins} (h : coinsSorted m) :
    (btreeInsert k v m).length =
      if k ∈ m.map Prod.fst then m.length else m.length + 1 := by
  induction m with
  | nil => simp [btreeInsert]
  | cons q rest ih =>
    obtain ⟨k', v'⟩ := q
    rw [coinsSorted, List.pairwise_cons] at h
    obtain ⟨hhead, htail⟩ := h
    simp only [btreeInsert]
    split
    · next hlt =>
      have hk : ¬ (k ∈ ((k', v') :: rest).map Prod.fst) := by
        simp only [List.map_cons, List.mem_cons]
        rintro (rfl | hk)
        · rw [strLt_irrefl] at hlt
          exact Bool.false_ne_true hlt
        · obtain ⟨p, hp, rfl⟩ := List.mem_map.mp hk
          have := strLt_trans hlt (hhead p hp)
          rw [strLt_irrefl] at this
          exact Bool.false_ne_true this
      rw [if_neg hk]
      simp
    · split
      · next heq =>
        subst heq
        rw [if_pos (by simp)]
        simp
      · next hlt hne =>
        simp only [List.length_cons, ih htail, List.map_cons, List.mem_cons,
          or_iff_right hne]
        by_cases hm : k ∈ rest.map Prod.fst <;> simp [hm]

theorem btreeInsert_length_le {k : Str} {v : Nat} {m : Coins} :
    (btreeInsert k v m).length ≤ m.length + 1 := by
  induction m with
  | nil => simp [btreeInsert]
  | cons q rest ih =>
    obtain ⟨k', v'⟩ := q
    simp only [btreeInsert]
    split
    · simp
    · split
      · simp
      · simpa using Nat.succ_le_succ ih

theorem foldl_insert_sorted (l : List (Str × Nat)) :
    ∀ acc : Coins, coinsSorted acc →
      coinsSorted (l.foldl (fun m p => btreeInsert p.1 p.2 m) acc) := by
  induction l with
  | nil => exact fun acc h => h
  | cons p l ih => exact fun acc h => ih _ (btreeInsert_sorted h)

theorem btreeFromList_sorted (l : List (Str × Nat)) : coinsSorted (btreeFromList l) :=
  foldl_insert_sorted l [] List.Pairwise.nil

theorem mem_keys_foldl (l : List (Str × Nat)) :
    ∀ (acc : Coins) (d : Str),
      d ∈ (l.foldl (fun m p => btreeInsert p.1 p.2 m) acc).map Prod.fst ↔
        d ∈ acc.map Prod.fst ∨ d ∈ l.map Prod.fst := by
  induction l with
  | nil => simp
  | cons p l ih =>
    intro acc d
    simp only [List.foldl_cons, ih, mem_keys_btreeInsert, List.map_cons, List.mem_cons]
    tauto

theorem mem_keys_btreeFromList {l : List (Str × Nat)} {d : Str} :
    d ∈ (btreeFromList l).map Prod.fst ↔ d ∈ l.map Prod.fst := by
  rw [btreeFromList, mem_keys_foldl]
  simp

theorem foldl_insert_perm (l : List (Str × Nat)) :
    ∀ acc : Coins, ((acc ++ l).map Prod.fst).Nodup →
      (l.foldl (fun m p => btreeInsert p.1 p.2 m) acc).Perm (acc ++ l) := by
  induction l with
  | nil => intro acc _; simp
  | cons p l ih =>
    intro acc h
    obtain ⟨pk, pv⟩ := p
    have h' := h
    simp only [List.map_append, List.map_cons, List.nodup_append] at h'
    obtain ⟨h1, h2, hdisj⟩ := h'
    have hpacc : pk ∉ acc.map Prod.fst := fun hmem => hdisj hmem (List.mem_cons_self _ _)
    have hperm1 : (btreeInsert pk pv acc).Perm ((pk, pv) :: acc) := btreeInsert_perm hpacc
    have hperm2 : (btreeInsert pk pv acc ++ l).Perm (acc ++ (pk, pv) :: l) :=
      (hperm1.append_right l).trans List.perm_middle.symm
    have hnodup2 : ((btreeInsert pk pv acc ++ l).map Prod.fst).Nodup :=
      ((hperm2.map Prod.fst).nodup_iff).mpr h
    simp only [List.foldl_cons]
    exact (ih _ hnodup2).trans hperm2

theorem btreeFromList_perm {l : List (Str × Nat)} (h : (l.map Prod.fst).Nodup) :
    (btreeFromList l).Perm l := by
  simpa [btreeFromList] using foldl_insert_perm l [] (by simpa using h)

theorem foldl_insert_length_le (l : List (Str × Nat)) :
    ∀ acc : Coins,
      (l.foldl (fun m p => btreeInsert p.1 p.2 m) acc).length ≤ acc.length + l.length := by
  induction l with
  | nil => simp
  | cons p l ih =>
    intro acc
    calc (l.foldl (fun m p => btreeInsert p.1 p.2 m) (btreeInsert p.1 p.2 acc)).length
        ≤ (btreeInsert p.1 p.2 acc).length + l.length := ih _
      _ ≤ (acc.length + 1) + l.length := Nat.add_le_add_right btreeInsert_length_le _
      _ = acc.length + (p :: l).length := by simp [Nat.add_assoc, Nat.add_comm 1]

theorem btreeFromList_length_le (l : List (Str × Nat)) :
    (btreeFromList l).length ≤ l.length := by
  simpa using foldl_insert_length_le l []

theorem btreeFromList_append_single (l : List (Str × Nat)) (p : Str × Nat) :
    btreeFromList (l ++ [p]) = btreeInsert p.1 p.2 (btreeFromList l) := by
  simp [btreeFromList, List.foldl_append]

theorem btreeFromList_length_iff (l : List (Str × Nat)) :
    (btreeFromList l).length = l.length ↔ (l.map Prod.fst).Nodup := by
  induction l using List.reverseRecOn with
  | nil => simp [btreeFromList]
  | append_singleton l p ih =>
    rw [btreeFromList_append_single, btreeInsert_length (btreeFromList_sorted l)]
    have hmem : (p.1 ∈ (btreeFromList l).map Prod.fst) ↔ p.1 ∈ l.map Prod.fst :=
      mem_keys_btreeFromList
    have hle := btreeFromList_length_le l
    by_cases hm : p.1 ∈ l.map Prod.fst
    · rw [if_pos (hmem.mpr hm)]
      simp only [List.length_append, List.length_cons, List.length_nil]
      constructor
      · intro h
        omega
      · intro h
        exfalso
        simp only [List.map_append, List.map_cons, List.map_nil, List.nodup_append] at h
        exact h.2.2 hm (List.mem_cons_self _ _)
    · rw [if_neg (fun hc => hm (hmem.mp hc))]
      simp only [List.length_append, List.length_cons, List.length_nil]
      constructor
      · intro h
        have hnd := ih.mp (by omega)
        simp only [List.map_append, List.map_cons, List.map_nil, List.nodup_append]
        refine ⟨hnd, List.nodup_singleton _, ?_⟩
        intro a ha hmem2
        rw [List.mem_singleton] at hmem2
        subst hmem2
        exact hm ha
      · intro h
        simp only [List.map_append, List.map_cons, List.map_nil, List.nodup_append] at h
        have := ih.mpr h.1
        omega

theorem btreeFromList_sorted_eq {l : List (Str × Nat)} (h : coinsSorted l) :
    btreeFromList l = l := by
  induction l using List.reverseRecOn with
  | nil => rfl
  | append_singleton l p ih =>
    obtain ⟨pk, pv⟩ := p
    rw [coinsSorted, List.pairwise_append] at h
    obtain ⟨h1, _, h3⟩ := h
    rw [btreeFromList_append_single, ih h1, btreeInsert_append]
    intro q hq
    exact h3 q hq (pk, pv) (List.mem_singleton.mpr rfl)

theorem coins_eq_of_perm_sorted {m₁ m₂ : Coins} (hp : m₁.Perm m₂)
    (h₁ : coinsSorted m₁) (h₂ : coinsSorted m₂) : m₁ = m₂ := by
  haveI : IsAntisymm (Str × Nat) (fun p q => strLt p.1 q.1 = true) := by
    refine ⟨?_⟩
    intro p q hpq hqp
    have := strLt_trans hpq hqp
    rw [strLt_irrefl] at this
    exact absurd this Bool.false_ne_true
  exact List.eq_of_perm_of_sorted hp h₁ h₂

/-! ### Character-class facts -/

theorem isDigit_toNat {c : Char} (h : c.isDigit = true) : 48 ≤ c.toNat ∧ c.toNat ≤ 57 := by
  simp only [Char.isDigit, Bool.and_eq_true, decide_eq_true_eq] at h
  exact h

theorem isAlpha_toNat {c : Char} (h : c.isAlpha = true) :
    (65 ≤ c.toNat ∧ c.toNat ≤ 90) ∨ (97 ≤ c.toNat ∧ c.toNat ≤ 122) := by
  simp only [Char.isAlpha, Char.isUpper, Char.isLower, Bool.or_eq_true, Bool.and_eq_true,
    decide_eq_true_eq] at h
  exact h

theorem isDigit_not_isAlpha {c : Char} (h : c.isDigit = true) : c.isAlpha = false := by
  have hd := isDigit_toNat h
  by_contra hc
  rw [Bool.not_eq_false] at hc
  rcases isAlpha_toNat hc with ⟨h1, _⟩ | ⟨h1, _⟩ <;> omega

theorem isDigit_ne_comma {c : Char} (h : c.isDigit = true) : c ≠ ',' := by
  have hd := isDigit_toNat h
  rintro rfl
  revert hd
  decide

theorem digitChar_isDigit {m : Nat} (h : m < 10) : (Nat.digitChar m).isDigit = true := by
  interval_cases m <;> decide

theorem digitChar_toNat {m : Nat} (h : m < 10) : (Nat.digitChar m).toNat = 48 + m := by
  interval_cases m <;> decide

/-! ### Decimal rendering and parsing of amounts -/

theorem digitsToNat_append (l : Str) (c : Char) :
    digitsToNat (l ++ [c]) = 10 * digitsToNat l + (c.toNat - 48) := by
  simp [digitsToNat, List.foldl_append]

theorem natToDecAux_spec : ∀ fuel n : Nat, n ≤ fuel →
    digitsToNat (natToDecAux fuel n) = n ∧
    (∀ c ∈ natToDecAux fuel n, c.isDigit = true) ∧
    (n ≠ 0 → natToDecAux fuel n ≠ []) := by
  intro fuel
  induction fuel with
  | zero =>
    intro n hn
    interval_cases n
    exact ⟨rfl, by simp [natToDecAux], fun h => absurd rfl h⟩
  | succ fuel ih =>
    intro n hn
    match n with
    | 0 => exact ⟨rfl, by simp [natToDecAux], fun h => absurd rfl h⟩
    | n + 1 =>
      have hdiv : (n + 1) / 10 ≤ fuel := by
        have := Nat.div_lt_self (Nat.succ_pos n) (by norm_num : (1 : Nat) < 10)
        omega
      obtain ⟨ih1, ih2, _⟩ := ih ((n + 1) / 10) hdiv
      have hmod : (n + 1) % 10 < 10 := Nat.mod_lt _ (by norm_num)
      simp only [natToDecAux]
      refine ⟨?_, ?_, ?_⟩
      · rw [digitsToNat_append, ih1, digitChar_toNat hmod]
        omega
      · intro c hc
        rcases List.mem_append.mp hc with hc | hc
        · exact ih2 c hc
        · rw [List.mem_singleton] at hc
          subst hc
          exact digitChar_isDigit hmod
      · intro _
        simp

theorem natToDec_spec (n : Nat) :
    digitsToNat (natToDec n) = n ∧ (∀ c ∈ natToDec n, c.isDigit = true) ∧ natToDec n ≠ [] := by
  by_cases h : n = 0
  · subst h
    refine ⟨by decide, ?_, by decide⟩
    intro c hc
    rw [show natToDec 0 = ['0'] from rfl, List.mem_singleton] at hc
    subst hc
    decide
  · obtain ⟨h1, h2, h3⟩ := natToDecAux_spec n n le_rfl
    rw [natToDec, if_neg h]
    exact ⟨h1, h2, h3 h⟩

theorem fromStr_natToDec {n : Nat} (h : n < 2 ^ 128) :
    Uint128.fromStr (natToDec n) = .ok n := by
  obtain ⟨h1, h2, h3⟩ := natToDec_spec n
  rw [Uint128.fromStr, if_pos]
  · rw [h1]
  · refine ⟨h3, ?_, by rw [h1]; exact h⟩
    rw [List.all_eq_true]
    exact h2

theorem fromStr_cases (s : Str) :
    Uint128.fromStr s = .ok (digitsToNat s) ∨
      Uint128.fromStr s = .error (.invalidAmount s) := by
  rw [Uint128.fromStr]
  split
  · exact Or.inl rfl
  · exact Or.inr rfl

/-! ### Splitting and joining on commas -/

theorem splitComma_no_comma {t : Str} (h : ',' ∉ t) : splitComma t = [t] := by
  induction t with
  | nil => rfl
  | cons c cs ih =>
    simp only [List.mem_cons, not_or] at h
    rw [splitComma, if_neg (fun hc => h.1 hc.symm), ih h.2]

theorem splitComma_append {t s : Str} (h : ',' ∉ t) :
    splitComma (t ++ ',' :: s) = t :: splitComma s := by
  induction t with
  | nil => simp [splitComma]
  | cons c cs ih =>
    simp only [List.mem_cons, not_or] at h
    rw [List.cons_append, splitComma, if_neg (fun hc => h.1 hc.symm), ih h.2]

theorem splitComma_joinComma {ts : List Str} (hne : ts ≠ [])
    (h : ∀ t ∈ ts, ',' ∉ t) : splitComma (joinComma ts) = ts := by
  induction ts with
  | nil => exact absurd rfl hne
  | cons t ts ih =>
    cases ts with
    | nil => exact splitComma_no_comma (h t (List.mem_cons_self _ _))
    | cons u us =>
      rw [show joinComma (t :: u :: us) = t ++ ',' :: joinComma (u :: us) from rfl]
      rw [splitComma_append (h t (List.mem_cons_self _ _))]
      rw [ih (by simp) (fun x hx => h x (List.mem_cons_of_mem _ hx))]

/-! ### Facts about `parse_coin_str` -/

theorem takeWhile_append_all {p : Char → Bool} {l₁ l₂ : Str} (h : ∀ c ∈ l₁, p c = true) :
    (l₁ ++ l₂).takeWhile p = l₁ ++ l₂.takeWhile p := by
  induction l₁ with
  | nil => simp
  | cons c cs ih =>
    have hc : p c = true := h c (List.mem_cons_self _ _)
    simp only [List.cons_append, List.takeWhile_cons, hc, if_true]
    rw [ih (fun x hx => h x (List.mem_cons_of_mem _ hx))]

theorem dropWhile_append_all {p : Char → Bool} {l₁ l₂ : Str} (h : ∀ c ∈ l₁, p c = true) :
    (l₁ ++ l₂).dropWhile p = l₂.dropWhile p := by
  induction l₁ with
  | nil => simp
  | cons c cs ih =>
    have hc : p c = true := h c (List.mem_cons_self _ _)
    simp only [List.cons_append, List.dropWhile_cons, hc, if_true]
    exact ih (fun x hx => h x (List.mem_cons_of_mem _ hx))

theorem parse_coin_str_token {pre : Str} {ch : Char} {cs : Str}
    (hpre : ∀ c ∈ pre, c.isAlpha = false) (hch : ch.isAlpha = true) :
    parse_coin_str (pre ++ ch :: cs) =
      (Uint128.fromStr pre).map fun amount => (ch :: cs, amount) := by
  have hall : ∀ c ∈ pre, (fun c => !c.isAlpha) c = true := by
    intro c hc
    simp [hpre c hc]
  have hdrop : (pre ++ ch :: cs).dropWhile (fun c => !c.isAlpha) = ch :: cs := by
    rw [dropWhile_append_all hall]
    simp [List.dropWhile_cons, hch]
  have htake : (pre ++ ch :: cs).takeWhile (fun c => !c.isAlpha) = pre := by
    rw [takeWhile_append_all hall]
    simp [List.takeWhile_cons, hch]
  simp only [parse_coin_str, hdrop, htake]

/-- Successful parses split the token at the first alphabetic character: the
denom is the non-empty remainder starting with that character, no character
before it is alphabetic, and the amount is the parsed digit prefix. -/
theorem parse_coin_str_ok {s d : Str} {a : Nat} (h : parse_coin_str s = .ok (d, a)) :
    ∃ pre ch cs, s = pre ++ d ∧ d = ch :: cs ∧ ch.isAlpha = true ∧
      (∀ c ∈ pre, c.isAlpha = false) ∧ Uint128.fromStr pre = .ok a := by
  rw [parse_coin_str] at h
  cases hr : List.dropWhile (fun c => !c.isAlpha) s with
  | nil =>
    rw [hr] at h
    simp at h
  | cons ch cs =>
    rw [hr] at h
    cases hf : Uint128.fromStr (s.takeWhile (fun c => !c.isAlpha)) with
    | error e =>
      rw [hf] at h
      simp [Except.map] at h
    | ok a0 =>
      rw [hf] at h
      simp only [Except.map, Except.ok.injEq, Prod.mk.injEq] at h
      obtain ⟨hd, ha⟩ := h
      refine ⟨s.takeWhile (fun c => !c.isAlpha), ch, cs, ?_, hd.symm, ?_, ?_, ?_⟩
      · rw [← hd, ← hr]
        exact (List.takeWhile_append_dropWhile _ _).symm
      · have := List.head?_dropWhile_not (fun c => !c.isAlpha) s
        rw [hr] at this
        simpa using this
      · intro c hc
        have := List.mem_takeWhile_imp hc
        simpa using this
      · rw [hf, ha]

/-! ### Facts about `collectResults` and `Coins.from_str` -/

theorem collectResults_map {l : List (Str × Nat)} {g : Str × Nat → Str}
    (h : ∀ p ∈ l, parse_coin_str (g p) = .ok p) :
    collectResults (l.map g) = .ok l := by
  induction l with
  | nil => rfl
  | cons p l ih =>
    rw [List.map_cons, collectResults, h p (List.mem_cons_self _ _),
      ih (fun q hq => h q (List.mem_cons_of_mem _ hq))]

theorem collectResults_mem {ts : List Str} {ps : List (Str × Nat)}
    (h : collectResults ts = .ok ps) : ∀ p ∈ ps, ∃ t ∈ ts, parse_coin_str t = .ok p := by
  induction ts generalizing ps with
  | nil =>
    rw [collectResults] at h
    simp only [Except.ok.injEq] at h
    subst h
    simp
  | cons t ts ih =>
    rw [collectResults] at h
    cases hp : parse_coin_str t with
    | error e =>
      rw [hp] at h
      simp at h
    | ok p0 =>
      rw [hp] at h
      cases hps : collectResults ts with
      | error e =>
        rw [hps] at h
        simp at h
      | ok ps0 =>
        rw [hps] at h
        simp only [Except.ok.injEq] at h
        subst h
        intro p hp2
        rcases List.mem_cons.mp hp2 with rfl | hmem
        · exact ⟨t, List.mem_cons_self _ _, hp⟩
        · obtain ⟨t', ht', hparse⟩ := ih hps p hmem
          exact ⟨t', List.mem_cons_of_mem _ ht', hparse⟩

theorem from_str_ok_iff {s : Str} {m : Coins} :
    Coins.from_str s = .ok m ↔
      ∃ ps, collectResults (splitComma s) = .ok ps ∧ m = btreeFromList ps := by
  rw [Coins.from_str]
  cases h : collectResults (splitComma s) with
  | error e =>
    simp [Except.map]
  | ok ps =>
    simp only [Except.map, Except.ok.injEq]
    constructor
    · intro h2
      exact ⟨ps, rfl, h2.symm⟩
    · rintro ⟨ps', hps', rfl⟩
      rw [hps']

/-! ### Facts about `visit_map_loop` -/

theorem visit_map_loop_dup : ∀ (pre : List (Str × Str)) (seen : List Str) (coins : Coins)
    (d s : Str) (rest : List (Str × Str)),
    (∀ p ∈ pre, p.1 ∉ seen) → (pre.map Prod.fst).Nodup →
    (∀ p ∈ pre, Uint128.fromStr p.2 ≠ .error (.invalidAmount p.2)) →
    (d ∈ pre.map Prod.fst ∨ d ∈ seen) →
    visit_map_loop (pre ++ (d, s) :: rest) seen coins = .error (.duplicateDenom d) := by
  intro pre
  induction pre with
  | nil =>
    intro seen coins d s rest _ _ _ hd
    simp only [List.map_nil, List.not_mem_nil, false_or] at hd
    rw [List.nil_append, visit_map_loop, if_pos hd]
  | cons q pre ih =>
    intro seen coins d s rest hseen hnd hok hd
    obtain ⟨qk, qv⟩ := q
    rw [List.map_cons, List.nodup_cons] at hnd
    obtain ⟨hqk, hnd'⟩ := hnd
    have hq1 : qk ∉ seen := hseen (qk, qv) (List.mem_cons_self _ _)
    rw [List.cons_append, visit_map_loop, if_neg hq1]
    rcases fromStr_cases qv with hf | hf
    · rw [hf]
      apply ih
      · intro p hp
        simp only [List.mem_cons, not_or]
        refine ⟨?_, hseen p (List.mem_cons_of_mem _ hp)⟩
        intro heq
        have hmem : p.1 ∈ List.map Prod.fst pre := List.mem_map_of_mem Prod.fst hp
        rw [heq] at hmem
        exact hqk hmem
      · exact hnd'
      · intro p hp
        exact hok p (List.mem_cons_of_mem _ hp)
      · rcases hd with hd | hd
        · rw [List.map_cons] at hd
          rcases List.mem_cons.mp hd with rfl | hd
          · exact Or.inr (List.mem_cons_self _ _)
          · exact Or.inl hd
        · exact Or.inr (List.mem_cons_of_mem _ hd)
    · exact absurd hf (hok (qk, qv) (List.mem_cons_self _ _))

theorem visit_map_loop_invalid : ∀ (pre : List (Str × Str)) (seen : List Str) (coins : Coins)
    (d s : Str) (rest : List (Str × Str)),
    (∀ p ∈ pre, p.1 ∉ seen) → (pre.map Prod.fst).Nodup →
    (∀ p ∈ pre, Uint128.fromStr p.2 ≠ .error (.invalidAmount p.2)) →
    d ∉ pre.map Prod.fst → d ∉ seen →
    Uint128.fromStr s = .error (.invalidAmount s) →
    visit_map_loop (pre ++ (d, s) :: rest) seen coins = .error (.invalidAmount s) := by
  intro pre
  induction pre with
  | nil =>
    intro seen coins d s rest _ _ _ _ hdseen hf
    rw [List.nil_append, visit_map_loop, if_neg hdseen, hf]
  | cons q pre ih =>
    intro seen coins d s rest hseen hnd hok hdpre hdseen hf
    obtain ⟨qk, qv⟩ := q
    rw [List.map_cons, List.nodup_cons] at hnd
    obtain ⟨hqk, hnd'⟩ := hnd
    rw [List.map_cons] at hdpre
    simp only [List.mem_cons, not_or] at hdpre
    obtain ⟨hdq, hdpre'⟩ := hdpre
    have hq1 : qk ∉ seen := hseen (qk, qv) (List.mem_cons_self _ _)
    rw [List.cons_append, visit_map_loop, if_neg hq1]
    rcases fromStr_cases qv with hfq | hfq
    · rw [hfq]
      apply ih
      · intro p hp
        simp only [List.mem_cons, not_or]
        refine ⟨?_, hseen p (List.mem_cons_of_mem _ hp)⟩
        intro heq
        have hmem : p.1 ∈ List.map Prod.fst pre := List.mem_map_of_mem Prod.fst hp
        rw [heq] at hmem
        exact hqk hmem
      · exact hnd'
      · intro p hp
        exact hok p (List.mem_cons_of_mem _ hp)
      · exact hdpre'
      · simp only [List.mem_cons, not_or]
        exact ⟨hdq, hdseen⟩
      · exact hf
    · exact absurd hfq (hok (qk, qv) (List.mem_cons_self _ _))

theorem visit_map_loop_ok : ∀ (pairs : List (Str × Nat)) (entries : List (Str × Str))
    (seen : List Str) (coins : Coins),
    List.Forall₂ (fun (e : Str × Str) (p : Str × Nat) =>
      e.1 = p.1 ∧ Uint128.fromStr e.2 = .ok p.2) entries pairs →
    (pairs.map Prod.fst).Nodup →
    (∀ p ∈ pairs, p.1 ∉ seen) →
    visit_map_loop entries seen coins =
      .ok (pairs.foldl (fun m p => btreeInsert p.1 p.2 m) coins) := by
  intro pairs
  induction pairs with
  | nil =>
    intro entries seen coins hf _ _
    cases hf
    rfl
  | cons p ps ih =>
    intro entries seen coins hf hnd hseen
    cases hf with
    | cons he hf' =>
      next e es =>
        obtain ⟨ek, ev⟩ := e
        obtain ⟨hek, hev⟩ := he
        have hek2 : ek = p.1 := hek
        have hev2 : Uint128.fromStr ev = .ok p.2 := hev
        rw [List.map_cons, List.nodup_cons] at hnd
        obtain ⟨hpk, hnd'⟩ := hnd
        have hknotseen : ek ∉ seen := by
          rw [hek2]
          exact hseen p (List.mem_cons_self _ _)
        rw [visit_map_loop, if_neg hknotseen, hev2, List.foldl_cons, hek2]
        apply ih
        · exact hf'
        · exact hnd'
        · intro q hq
          simp only [List.mem_cons, not_or]
          refine ⟨?_, hseen q (List.mem_cons_of_mem _ hq)⟩
          intro heq
          have hmem : q.1 ∈ List.map Prod.fst ps := List.mem_map_of_mem Prod.fst hq
          rw [heq] at hmem
          exact hpk hmem

theorem visit_map_loop_sorted : ∀ (entries : List (Str × Str)) (seen : List Str)
    (coins : Coins), coinsSorted coins → ∀ {m : Coins},
    visit_map_loop entries seen coins = .ok m → coinsSorted m := by
  intro entries
  induction entries with
  | nil =>
    intro seen coins hs m h
    rw [visit_map_loop] at h
    simp only [Except.ok.injEq] at h
    exact h ▸ hs
  | cons e es ih =>
    intro seen coins hs m h
    obtain ⟨ek, ev⟩ := e
    rw [visit_map_loop] at h
    by_cases hmem : ek ∈ seen
    · rw [if_pos hmem] at h
      simp at h
    · rw [if_neg hmem] at h
      cases hf : Uint128.fromStr ev with
      | error e0 =>
        rw [hf] at h
        simp at h
      | ok amount =>
        rw [hf] at h
        exact ih _ _ (btreeInsert_sorted hs) h

/-! ### Helper characterizations of the construction paths -/

theorem keys_map_denoms (vec : List Coin) :
    (vec.map fun c => (c.denom, c.amount)).map Prod.fst = vec.map Coin.denom := by
  rw [List.map_map]
  rfl

theorem try_from_eq (vec : List Coin) :
    Coins.try_from vec =
      if (vec.map Coin.denom).Nodup
      then .ok (btreeFromList (vec.map fun c => (c.denom, c.amount)))
      else .error .duplicateDenoms := by
  have hlen : (vec.map fun c => (c.denom, c.amount)).length = vec.length := by simp
  have hiff := btreeFromList_length_iff (vec.map fun c => (c.denom, c.amount))
  rw [keys_map_denoms, hlen] at hiff
  simp only [Coins.try_from]
  by_cases hnd : (vec.map Coin.denom).Nodup
  · rw [if_neg (fun hne => hne (hiff.mpr hnd)), if_pos hnd]
  · rw [if_pos (fun heq => hnd (hiff.mp heq)), if_neg hnd]

theorem mem_of_mem_foldl_insert (l : List (Str × Nat)) :
    ∀ (acc : Coins) (p : Str × Nat),
      p ∈ l.foldl (fun m q => btreeInsert q.1 q.2 m) acc → p ∈ acc ∨ p ∈ l := by
  induction l with
  | nil => exact fun acc p h => Or.inl h
  | cons q l ih =>
    intro acc p h
    rcases ih _ p h with h2 | h2
    · rcases mem_btreeInsert h2 with h3 | h3
      · right
        rw [h3, Prod.mk.eta]
        exact List.mem_cons_self _ _
      · exact Or.inl h3
    · exact Or.inr (List.mem_cons_of_mem _ h2)

theorem mem_btreeFromList_sub {l : List (Str × Nat)} {p : Str × Nat}
    (h : p ∈ btreeFromList l) : p ∈ l := by
  rcases mem_of_mem_foldl_insert l [] p h with h2 | h2
  · simp at h2
  · exact h2

/-! ### Claim theorems -/

/-- Claim C2: construction from a list of N pairs succeeds iff the N
denominations are pairwise distinct; on success the collection holds exactly
the N given pairs (a permutation of the input), and on failure the error is
the generic `duplicateDenoms`, which carries no denomination. -/
theorem try_from_spec (vec : List Coin) :
    ((∃ m, Coins.try_from vec = .ok m) ↔ (vec.map Coin.denom).Nodup) ∧
    (∀ m, Coins.try_from vec = .ok m →
      m.Perm (vec.map fun c => (c.denom, c.amount))) ∧
    (¬ (vec.map Coin.denom).Nodup → Coins.try_from vec = .error .duplicateDenoms) := by
  refine ⟨⟨?_, ?_⟩, ?_, ?_⟩
  · rintro ⟨m, hm⟩
    rw [try_from_eq] at hm
    by_cases hnd : (vec.map Coin.denom).Nodup
    · exact hnd
    · rw [if_neg hnd] at hm
      exact absurd hm (by simp)
  · intro hnd
    exact ⟨_, by rw [try_from_eq, if_pos hnd]⟩
  · intro m hm
    rw [try_from_eq] at hm
    by_cases hnd : (vec.map Coin.denom).Nodup
    · rw [if_pos hnd] at hm
      simp only [Except.ok.injEq] at hm
      subst hm
      refine btreeFromList_perm ?_
      rw [keys_map_denoms]
      exact hnd
    · rw [if_neg hnd] at hm
      exact absurd hm (by simp)
  · intro hnd
    rw [try_from_eq, if_neg hnd]

/-- Witness for C2 at a concrete duplicate-denomination vector. -/
theorem try_from_spec_witness :
    Coins.try_from [⟨str "uatom", 1⟩, ⟨str "uatom", 2⟩] = .error .duplicateDenoms :=
  (try_from_spec _).2.2 (by decide)

/-- Claim C5: every successfully constructed collection is key-sorted in
ascending byte-lexicographic order (rendering and encoding iterate the map, so
they list denominations in that order regardless of construction order), and
list constructions from permutations of the same distinct-denomination pairs
are equal, hence render byte-identically. -/
theorem canonical_order_spec :
    (∀ (vec : List Coin) (m : Coins), Coins.try_from vec = .ok m → coinsSorted m) ∧
    (∀ (s : Str) (m : Coins), Coins.from_str s = .ok m → coinsSorted m) ∧
    (∀ (entries : List (Str × Str)) (m : Coins),
      Coins.deserialize entries = .ok m → coinsSorted m) ∧
    (∀ v₁ v₂ : List Coin, v₁.Perm v₂ → (v₁.map Coin.denom).Nodup →
      Coins.try_from v₁ = Coins.try_from v₂) := by
  refine ⟨?_, ?_, ?_, ?_⟩
  · intro vec m hm
    rw [try_from_eq] at hm
    by_cases hnd : (vec.map Coin.denom).Nodup
    · rw [if_pos hnd] at hm
      simp only [Except.ok.injEq] at hm
      subst hm
      exact btreeFromList_sorted _
    · rw [if_neg hnd] at hm
      exact absurd hm (by simp)
  · intro s m hm
    obtain ⟨ps, _, rfl⟩ := from_str_ok_iff.mp hm
    exact btreeFromList_sorted _
  · intro entries m hm
    exact visit_map_loop_sorted entries [] [] List.Pairwise.nil hm
  · intro v₁ v₂ hperm hnd
    have hnd₂ : (v₂.map Coin.denom).Nodup := ((hperm.map Coin.denom).nodup_iff).mp hnd
    rw [try_from_eq, try_from_eq, if_pos hnd, if_pos hnd₂]
    have hpl : (v₁.map fun c => (c.denom, c.amount)).Perm
        (v₂.map fun c => (c.denom, c.amount)) := hperm.map _
    have h1 : (btreeFromList (v₁.map fun c => (c.denom, c.amount))).Perm
        (btreeFromList (v₂.map fun c => (c.denom, c.amount))) := by
      refine ((btreeFromList_perm ?_).trans hpl).trans (btreeFromList_perm ?_).symm
      · rw [keys_map_denoms]
        exact hnd
      · rw [keys_map_denoms]
        exact hnd₂
    rw [coins_eq_of_perm_sorted h1 (btreeFromList_sorted _) (btreeFromList_sorted _)]

/-- Witness for C5 at a concrete permuted pair of vectors. -/
theorem canonical_order_spec_witness :
    Coins.try_from [⟨str "b", 1⟩, ⟨str "a", 2⟩]
      = Coins.try_from [⟨str "a", 2⟩, ⟨str "b", 1⟩] :=
  canonical_order_spec.2.2.2 _ _ (List.Perm.swap _ _ _) (by decide)

/-- Claim C3: document deserialization walks the entries in declaration
order; an entry repeating a denomination seen earlier fails with
`duplicateDenom` naming it, and, when the keys are distinct, an entry whose
amount string does not parse fails with `invalidAmount` naming that string. -/
theorem deserialize_error_spec (pre rest : List (Str × Str)) (d s : Str)
    (hnd : (pre.map Prod.fst).Nodup)
    (hok : ∀ p ∈ pre, Uint128.fromStr p.2 ≠ .error (.invalidAmount p.2)) :
    (d ∈ pre.map Prod.fst →
      Coins.deserialize (pre ++ (d, s) :: rest) = .error (.duplicateDenom d)) ∧
    (d ∉ pre.map Prod.fst → Uint128.fromStr s = .error (.invalidAmount s) →
      Coins.deserialize (pre ++ (d, s) :: rest) = .error (.invalidAmount s)) := by
  constructor
  · intro hd
    exact visit_map_loop_dup pre [] [] d s rest (by simp) hnd hok (Or.inl hd)
  · intro hd hf
    exact visit_map_loop_invalid pre [] [] d s rest (by simp) hnd hok hd (by simp) hf

/-- Witness for C3 at a concrete duplicated document and a concrete
invalid-amount document. -/
theorem deserialize_error_spec_witness :
    Coins.deserialize [(str "uatom", str "1"), (str "uatom", str "2")]
        = .error (.duplicateDenom (str "uatom")) ∧
    Coins.deserialize [(str "uatom", str "1"), (str "ibc", str "ngmi")]
        = .error (.invalidAmount (str "ngmi")) :=
  ⟨(deserialize_error_spec [(str "uatom", str "1")] [] (str "uatom") (str "2")
      (by decide) (by decide)).1 (by decide),
   (deserialize_error_spec [(str "uatom", str "1")] [] (str "ibc") (str "ngmi")
      (by decide) (by decide)).2 (by decide) (by decide)⟩

/-- Claim C9: the duplicate-denomination check runs before the entry's amount
string is parsed: a repeated denomination whose second occurrence carries an
invalid amount string fails with `duplicateDenom`, not `invalidAmount`. -/
theorem dup_before_amount_spec (pre rest : List (Str × Str)) (d s : Str)
    (hnd : (pre.map Prod.fst).Nodup)
    (hok : ∀ p ∈ pre, Uint128.fromStr p.2 ≠ .error (.invalidAmount p.2))
    (hd : d ∈ pre.map Prod.fst)
    (hbad : Uint128.fromStr s = .error (.invalidAmount s)) :
    Coins.deserialize (pre ++ (d, s) :: rest) = .error (.duplicateDenom d) ∧
    Coins.deserialize (pre ++ (d, s) :: rest) ≠ .error (.invalidAmount s) := by
  have h := visit_map_loop_dup pre [] [] d s rest (by simp) hnd hok (Or.inl hd)
  refine ⟨h, ?_⟩
  intro hcontra
  rw [Coins.deserialize] at hcontra
  rw [h] at hcontra
  simp at hcontra

/-- Witness for C9 at a concrete document whose repeated key's second value is
not a number. -/
theorem dup_before_amount_spec_witness :
    Coins.deserialize [(str "uatom", str "1"), (str "uatom", str "ngmi")]
        = .error (.duplicateDenom (str "uatom")) ∧
    Coins.deserialize [(str "uatom", str "1"), (str "uatom", str "ngmi")]
        ≠ .error (.invalidAmount (str "ngmi")) :=
  dup_before_amount_spec [(str "uatom", str "1")] [] (str "uatom") (str "ngmi")
    (by decide) (by decide) (by decide) (by decide)

/-- Claim C7: the compact token "69420" (no alphabetic character) fails with
the invalid-coin-format error naming the token, and "ngmi" (empty digit
prefix) fails with the invalid-amount error (on the empty amount string). -/
theorem scenario_tokens :
    parse_coin_str (str "69420") = .error (.invalidCoinFormat (str "69420")) ∧
    parse_coin_str (str "ngmi") = .error (.invalidAmount (str "")) :=
  ⟨by decide, by decide⟩

/-- Claim C8: the empty collection renders as the empty string, parsing the
empty string fails with the format-validation error, and the empty collection
is the empty constructor's value. -/
theorem empty_render_parse :
    Coins.to_string Coins.new = str "" ∧
    Coins.from_str (str "") = .error (.invalidCoinFormat (str "")) ∧
    Coins.new = ([] : Coins) :=
  ⟨rfl, by decide, rfl⟩

/-- Claim C1 counterexample: a compact string with a duplicated denomination
parses successfully into a collection (the claim says it must fail with a
duplicate-denomination error and produce no collection). -/
theorem from_str_dup_cex :
    Coins.from_str (str "1uatom,2uatom") = .ok [(str "uatom", 2)] := by decide

/-- Claim C1 (amended): compact-string parsing applies no duplicate check:
two comma-free tokens carrying the same denomination parse successfully, the
second token's amount overwriting the first. -/
theorem from_str_dup_last_wins {t₁ t₂ d : Str} {a₁ a₂ : Nat}
    (h₁ : ',' ∉ t₁) (h₂ : ',' ∉ t₂)
    (hp₁ : parse_coin_str t₁ = .ok (d, a₁)) (hp₂ : parse_coin_str t₂ = .ok (d, a₂)) :
    Coins.from_str (t₁ ++ ',' :: t₂) = .ok [(d, a₂)] := by
  have hc : collectResults [t₁, t₂] = .ok [(d, a₁), (d, a₂)] := by
    rw [collectResults, hp₁, collectResults, hp₂, collectResults]
  rw [Coins.from_str, splitComma_append h₁, splitComma_no_comma h₂, hc]
  simp only [Except.map, Except.ok.injEq]
  show btreeInsert d a₂ (btreeInsert d a₁ []) = [(d, a₂)]
  rw [show btreeInsert d a₁ [] = [(d, a₁)] from rfl]
  rw [btreeInsert, if_neg (by rw [strLt_irrefl]; exact Bool.false_ne_true), if_pos rfl]

/-- Witness for the amended C1 at a concrete duplicated pair of tokens. -/
theorem from_str_dup_last_wins_witness :
    Coins.from_str (str "1uatom" ++ ',' :: str "2uatom") = .ok [(str "uatom", 2)] :=
  @from_str_dup_last_wins (str "1uatom") (str "2uatom") (str "uatom") 1 2
    (by decide) (by decide) (by decide) (by decide)

theorem fromStr_ok_elim {s : Str} {a : Nat} (h : Uint128.fromStr s = .ok a) :
    s ≠ [] ∧ (∀ c ∈ s, c.isDigit = true) ∧ a = digitsToNat s := by
  rw [Uint128.fromStr] at h
  split at h
  · next hc =>
    simp only [Except.ok.injEq] at h
    refine ⟨hc.1, ?_, h.symm⟩
    intro c hcm
    have hall := hc.2.1
    rw [List.all_eq_true] at hall
    exact hall c hcm
  · simp at h

/-- Claim C6: an accepted compact-format token is the longest leading run of
decimal digits (the amount) followed by a non-empty remainder (the denom),
and any token whose amount portion (the characters before the first
alphabetic one) contains a non-digit character is rejected. -/
theorem token_format_spec (s : Str) :
    (∀ d a, parse_coin_str s = .ok (d, a) →
      d ≠ [] ∧ s = s.takeWhile Char.isDigit ++ d ∧
        s.takeWhile Char.isDigit ≠ [] ∧ a = digitsToNat (s.takeWhile Char.isDigit)) ∧
    (∀ c ∈ s.takeWhile (fun c => !c.isAlpha), c.isDigit = false →
      ∀ r, parse_coin_str s ≠ .ok r) := by
  constructor
  · intro d a h
    obtain ⟨pre, ch, cs, hs, hd, hch, hpre, hfs⟩ := parse_coin_str_ok h
    obtain ⟨hne, hdig, ha⟩ := fromStr_ok_elim hfs
    have hchd : ¬ (ch.isDigit = true) := by
      intro hcd
      rw [isDigit_not_isAlpha hcd] at hch
      exact Bool.false_ne_true hch
    have htake : s.takeWhile Char.isDigit = pre := by
      rw [hs, hd, takeWhile_append_all hdig, List.takeWhile_cons_of_neg hchd,
        List.append_nil]
    refine ⟨by rw [hd]; simp, ?_, ?_, ?_⟩
    · rw [htake, ← hs]
    · rw [htake]
      exact hne
    · rw [htake]
      exact ha
  · intro c hc hcd r h
    obtain ⟨d, a⟩ := r
    obtain ⟨pre, ch, cs, hs, hd, hch, hpre, hfs⟩ := parse_coin_str_ok h
    obtain ⟨hne, hdig, ha⟩ := fromStr_ok_elim hfs
    have htake2 : s.takeWhile (fun c => !c.isAlpha) = pre := by
      rw [hs, hd, takeWhile_append_all (fun x hx => by simp [hpre x hx]),
        List.takeWhile_cons_of_neg (by simp [hch]), List.append_nil]
    rw [htake2] at hc
    rw [hdig c hc] at hcd
    simp at hcd

/-- Witness for C6: the accepted token "12uatom" splits as the digit run "12"
and the denomination "uatom". -/
theorem token_format_spec_witness :
    str "uatom" ≠ [] ∧
    str "12uatom" = (str "12uatom").takeWhile Char.isDigit ++ str "uatom" ∧
    (str "12uatom").takeWhile Char.isDigit ≠ [] ∧
    12 = digitsToNat ((str "12uatom").takeWhile Char.isDigit) :=
  (token_format_spec (str "12uatom")).1 (str "uatom") 12 (by decide)

/-- Claim C10: a successful token parse returns a non-empty denomination whose
first character is alphabetic, with no alphabetic character before the split
point, and the amount parsed from the prefix; hence every denomination stored
by compact-string parsing begins with an alphabetic character. -/
theorem parse_sound_denoms :
    (∀ s d a, parse_coin_str s = .ok (d, a) →
      ∃ pre ch cs, s = pre ++ d ∧ d = ch :: cs ∧ ch.isAlpha = true ∧
        (∀ c ∈ pre, c.isAlpha = false) ∧ Uint128.fromStr pre = .ok a) ∧
    (∀ s m, Coins.from_str s = .ok m →
      ∀ p ∈ m, ∃ ch cs, p.1 = ch :: cs ∧ ch.isAlpha = true) := by
  refine ⟨fun s d a h => parse_coin_str_ok h, ?_⟩
  intro s m hm p hp
  obtain ⟨ps, hps, rfl⟩ := from_str_ok_iff.mp hm
  have hp2 : p ∈ ps := mem_btreeFromList_sub hp
  obtain ⟨t, _, hparse⟩ := collectResults_mem hps p hp2
  rw [← @Prod.mk.eta _ _ p] at hparse
  obtain ⟨pre, ch, cs, _, hd, hch, _, _⟩ := parse_coin_str_ok hparse
  exact ⟨ch, cs, hd, hch⟩

/-- Witness for C10 at the concrete token "12uatom". -/
theorem parse_sound_denoms_witness :
    ∃ pre ch cs, str "12uatom" = pre ++ str "uatom" ∧ str "uatom" = ch :: cs ∧
      ch.isAlpha = true ∧ (∀ c ∈ pre, c.isAlpha = false) ∧
      Uint128.fromStr pre = .ok 12 :=
  parse_sound_denoms.1 (str "12uatom") (str "uatom") 12 (by decide)

/-- Claim C4 counterexample: the collection [("2atom", 1)], built through the
valid list construction path, renders to the compact string "12atom", which
re-parses to the different collection [("atom", 12)]; so parse(render c) = c
fails for a validly constructed non-empty collection. -/
theorem roundtrip_cex :
    Coins.try_from [⟨str "2atom", 1⟩] = .ok [(str "2atom", 1)] ∧
    Coins.from_str (Coins.to_string [(str "2atom", 1)]) = .ok [(str "atom", 12)] ∧
    [(str "atom", 12)] ≠ [(str "2atom", 1)] :=
  ⟨by decide, by decide, by decide⟩

/-- Claim C4 (amended): for a collection (sorted map, in-range amounts), if
every denomination is non-empty, starts with an alphabetic character and
contains no comma, and the collection has at least one entry, then parsing the
rendered compact string yields the collection back; and decoding the encoded
document yields the collection back (for every such collection). -/
theorem roundtrip_spec (c : Coins) (hs : coinsSorted c)
    (hb : ∀ p ∈ c, p.2 < 2 ^ 128) :
    ((∀ p ∈ c, ∃ ch cs, p.1 = ch :: cs ∧ ch.isAlpha = true ∧ ',' ∉ p.1) → c ≠ [] →
      Coins.from_str (Coins.to_string c) = .ok c) ∧
    Coins.deserialize (Coins.serialize c) = .ok c := by
  constructor
  · intro hd hne
    have htokne : (c.map fun p => natToDec p.2 ++ p.1) ≠ [] := by
      intro hmap
      exact hne (List.map_eq_nil_iff.mp hmap)
    have htokc : ∀ t ∈ (c.map fun p => natToDec p.2 ++ p.1), ',' ∉ t := by
      intro t ht
      obtain ⟨p, hp, rfl⟩ := List.mem_map.mp ht
      intro hcomma
      rcases List.mem_append.mp hcomma with h2 | h2
      · exact isDigit_ne_comma ((natToDec_spec p.2).2.1 _ h2) rfl
      · obtain ⟨ch, cs, _, _, hnc⟩ := hd p hp
        exact hnc h2
    refine from_str_ok_iff.mpr ⟨c, ?_, (btreeFromList_sorted_eq hs).symm⟩
    rw [Coins.to_string, splitComma_joinComma htokne htokc]
    apply collectResults_map
    intro p hp
    obtain ⟨ch, cs, hp1, hch, _⟩ := hd p hp
    have hpre : ∀ x ∈ natToDec p.2, x.isAlpha = false := fun x hx =>
      isDigit_not_isAlpha ((natToDec_spec p.2).2.1 x hx)
    rw [hp1, parse_coin_str_token hpre hch, fromStr_natToDec (hb p hp)]
    rw [show Except.map (fun amount => (ch :: cs, amount)) (Except.ok p.2)
        = (Except.ok (ch :: cs, p.2) : Except CoinsError (Str × Nat)) from rfl]
    rw [← hp1, Prod.mk.eta]
  · have hforall : List.Forall₂ (fun (e : Str × Str) (p : Str × Nat) =>
        e.1 = p.1 ∧ Uint128.fromStr e.2 = .ok p.2) (Coins.serialize c) c := by
      rw [Coins.serialize, List.forall₂_map_left_iff, List.forall₂_same]
      intro p hp
      exact ⟨rfl, fromStr_natToDec (hb p hp)⟩
    have hnd : (c.map Prod.fst).Nodup := by
      have hpw : List.Pairwise (fun a b : Str => a ≠ b) (c.map Prod.fst) := by
        rw [List.pairwise_map]
        refine List.Pairwise.imp ?_ hs
        intro p q hpq heq
        rw [heq, strLt_irrefl] at hpq
        exact Bool.false_ne_true hpq
      exact hpw
    have hloop := visit_map_loop_ok c (Coins.serialize c) [] [] hforall hnd (by simp)
    calc Coins.deserialize (Coins.serialize c)
        = .ok (c.foldl (fun m p => btreeInsert p.1 p.2 m) []) := hloop
      _ = .ok c := by
          rw [show c.foldl (fun m p => btreeInsert p.1 p.2 m) [] = btreeFromList c from rfl,
            btreeFromList_sorted_eq hs]

/-- Witness for the amended C4 at the singleton collection [("uatom", 12345)]. -/
theorem roundtrip_spec_witness :
    Coins.from_str (Coins.to_string [(str "uatom", 12345)])
        = .ok [(str "uatom", 12345)] ∧
    Coins.deserialize (Coins.serialize [(str "uatom", 12345)])
        = .ok [(str "uatom", 12345)] := by
  have hs : coinsSorted [(str "uatom", 12345)] := by simp [coinsSorted]
  have hb : ∀ p ∈ [(str "uatom", 12345)], p.2 < 2 ^ 128 := by decide
  have hd : ∀ p ∈ [(str "uatom", 12345)],
      ∃ ch cs, p.1 = ch :: cs ∧ ch.isAlpha = true ∧ ',' ∉ p.1 := by
    intro p hp
    rw [List.mem_singleton] at hp
    subst hp
    exact ⟨'u', str "atom", rfl, by decide, by decide⟩
  exact ⟨(roundtrip_spec _ hs hb).1 hd (by decide), (roundtrip_spec _ hs hb).2⟩

example : parse_coin_str (str "12345uatom") = .ok (str "uatom", 12345) := by decide
example : parse_coin_str (str "69420") = .error (.invalidCoinFormat (str "69420")) := by decide
example : parse_coin_str (str "ngmi") = .error (.invalidAmount (str "")) := by decide
example : Coins.from_str (str "1uatom,2uatom") = .ok [(str "uatom", 2)] := by decide
example : Coins.from_str (str "2b,1a") = .ok [(str "a", 1), (str "b", 2)] := by decide
example : Coins.to_string [(str "a", 1), (str "b", 2)] = str "1a,2b" := by decide
example : Coins.try_from [⟨str "u", 1⟩, ⟨str "u", 2⟩] = .error .duplicateDenoms := by decide
example : Coins.deserialize [(str "u", str "1"), (str "u", str "x")]
    = .error (.duplicateDenom (str "u")) := by decide
example : Coins.deserialize [(str "u", str "1"), (str "v", str "x")]
    = .error (.invalidAmount (str "x")) := by decide

end CwCoins
